import Mathlib

/-!
# Verification of the affine-hull projection routine

Shallow embedding of `_affine_hull_projection` from
`src/sage/geometry/polyhedron/base.py` (lines 2720-2879), together with the
helper routines it calls.  A polyhedron is given by its V-representation
(vertices, rays, lines) over an exact field `F`.  The routine returns the
projection of the polyhedron into its affine hull, together with the affine
projection map and the affine section map, or an error.

Helper routines of the repository that are not part of the provided source
file (`an_affine_basis`, `Matrix.gram_schmidt`, `Matrix.pivots`,
`solve_left`, `number_field_elements_from_algebraics`) are modelled from the
spec; each such definition carries a doc comment starting with
`Modelled from the spec:`.
-/

namespace AffineHull

open Matrix

variable {F E R : Type*}

/-! ## Vectors and row matrices -/

/-- The matrix whose rows are the entries of the list `l`
(`matrix(gens)` / `matrix(base_ring, ..., vi)` in the source). -/
def matOfRows [Semiring R] {d : ℕ} (l : List (Fin d → R)) :
    Matrix (Fin l.length) (Fin d) R :=
  Matrix.of fun i j => l.get i j

/-- The standard dot product on `Fin d → R`; the inner product used by
Gram-Schmidt. -/
def dotP [Semiring R] {d : ℕ} (u v : Fin d → R) : R := ∑ i, u i * v i

theorem dotP_comm [CommSemiring R] {d : ℕ} (u v : Fin d → R) :
    dotP u v = dotP v u := by
  unfold dotP
  exact Finset.sum_congr rfl fun i _ => mul_comm _ _

/-! ## Gram-Schmidt orthogonalization (modelled from the spec) -/

/-- Modelled from the spec: one step of Gram-Schmidt ("Shifted displacement
vectors ... are Gram-Schmidt-orthogonalized"): subtract from `m` its
projections onto the previously produced orthogonal vectors `done`.
The underlying `Matrix.gram_schmidt` is not part of the provided source. -/
def gsStep [Field R] {d : ℕ} (done : List (Fin d → R)) (m : Fin d → R) :
    Fin d → R :=
  m - (done.map (fun u => (dotP m u / dotP u u) • u)).sum

/-- Modelled from the spec: Gram-Schmidt orthogonalization of a list of row
vectors.  Fails (like the source's `ValueError` for rank-deficient input)
when an orthogonalized vector has zero self-inner-product. -/
def gsGo [Field R] [DecidableEq R] {d : ℕ} (done : List (Fin d → R)) :
    List (Fin d → R) → Option (List (Fin d → R))
  | [] => some []
  | m :: ms =>
    if dotP (gsStep done m) (gsStep done m) = 0 then none
    else
      match gsGo (done ++ [gsStep done m]) ms with
      | none => none
      | some rest => some (gsStep done m :: rest)

/-- A partial square-root capability of a field, as in the spec's
"field with exact arithmetic ... and optional real-closure/square-root
operation". -/
structure SqrtOracle (R : Type*) [Mul R] where
  trySqrt : R → Option R
  sqrt_mul_self : ∀ x r, trySqrt x = some r → r * r = x

/-- Modelled from the spec: normalization pass of Gram-Schmidt
("orthonormalized if requested").  Each row is divided by a square root of
its self-inner-product; fails when the square root is not available in the
field (the source's `TypeError`). -/
def normalizeRows [Field R] {d : ℕ} (oracle : SqrtOracle R) :
    List (Fin d → R) → Option (List (Fin d → R))
  | [] => some []
  | a :: rest =>
    match oracle.trySqrt (dotP a a), normalizeRows oracle rest with
    | some s, some ns => some ((s⁻¹ • a) :: ns)
    | _, _ => none

/-- Failure modes of `Matrix.gram_schmidt`: rank-deficient input
(`ValueError`, uncaught by `_affine_hull_projection`) versus a missing
square root (`TypeError`, caught and redirected to the field extension). -/
inductive GSError
  | rankDeficient
  | sqrtMissing
deriving DecidableEq

/-- Modelled from the spec: `M.gram_schmidt(orthonormal=...)`, returning the
orthogonal (resp. orthonormal) rows. -/
def gramSchmidt [Field R] [DecidableEq R] {d : ℕ} (oracle : SqrtOracle R)
    (orthonormal : Bool) (rows : List (Fin d → R)) :
    Except GSError (List (Fin d → R)) :=
  match gsGo [] rows with
  | none => .error .rankDeficient
  | some as =>
    if orthonormal then
      match normalizeRows oracle as with
      | none => .error .sqrtMissing
      | some ns => .ok ns
    else .ok as

/-! ## Pivot selection (modelled from the spec) -/

/-- Row-reduction elimination step: clear column `j` of row `r` using the
pivot row `p`. -/
def elimOn [Field R] {d : ℕ} (p : Fin d → R) (j : Fin d) (r : Fin d → R) :
    Fin d → R :=
  r - (r j / p j) • p

/-- Modelled from the spec: pivot-column selection by row reduction
("identify k linearly independent columns via pivoting (e.g. row-reduction
column-pivot selection)"); the underlying `M.pivots()` is not part of the
provided source.  Scans columns left to right; a column is a pivot when some
remaining row is nonzero there, after which that row is used to eliminate
the column from the others and is dropped. -/
def pivotsGo [Field R] [DecidableEq R] {d : ℕ} (rows : List (Fin d → R)) :
    ℕ → ℕ → List ℕ
  | _, 0 => []
  | j, fuel + 1 =>
    if h : j < d then
      match rows.find? (fun r => decide (r ⟨j, h⟩ ≠ 0)) with
      | some p =>
        j :: pivotsGo ((rows.erase p).map (elimOn p ⟨j, h⟩)) (j + 1) fuel
      | none => pivotsGo rows (j + 1) fuel
    else []

/-- Modelled from the spec: the pivot columns of the matrix with rows
`rows`. -/
def pivotsL [Field R] [DecidableEq R] {d : ℕ} (rows : List (Fin d → R)) :
    List ℕ :=
  pivotsGo rows 0 d

/-! ## Polyhedra -/

/-- V-representation of a polyhedron over `R` in ambient dimension `d`:
the generator set of the spec ("the ordered collection of vertices (and,
for unbounded polyhedra, rays/lines)").  The Sage invariant that a
polyhedron with any generator has at least one vertex is assumed; a
polyhedron is empty exactly when its vertex list is empty. -/
structure Polyhedron (R : Type*) (d : ℕ) where
  vertices : List (Fin d → R)
  rays : List (Fin d → R)
  lines : List (Fin d → R)
deriving DecidableEq

namespace Polyhedron

/-- The first vertex, used as origin of the affine hull
(`self.vertices()[0].vector()`). -/
def vzero [Zero R] {d : ℕ} (P : Polyhedron R d) : Fin d → R :=
  P.vertices.headD 0

/-- The displacement generators of the affine hull: `vertex_i - v0` for all
vertices other than the first, plus all ray vectors, plus all line vectors
(source lines 2846-2855). -/
def gens [Field R] {d : ℕ} (P : Polyhedron R d) : List (Fin d → R) :=
  P.vertices.tail.map (fun v => v - P.vzero) ++ P.rays ++ P.lines

/-- Modelled from the spec: `self.dim()`, the affine-hull dimension, i.e.
the rank of the displacement generators, computed as the number of pivot
columns. -/
def dim [Field R] [DecidableEq R] {d : ℕ} (P : Polyhedron R d) : ℕ :=
  (pivotsL P.gens).length

/-- Modelled from the spec: `self.is_compact()`; a polyhedron is compact
exactly when it has no rays and no lines. -/
def isCompact {d : ℕ} (P : Polyhedron R d) : Bool :=
  P.rays.isEmpty && P.lines.isEmpty

/-- Apply a ring homomorphism to all generators (`matrix(AA, M)`,
`change_ring`). -/
def mapRing [Semiring R] [Semiring E] {d : ℕ} (φ : R →+* E)
    (P : Polyhedron R d) : Polyhedron E d :=
  ⟨P.vertices.map (fun v => φ ∘ v), P.rays.map (fun v => φ ∘ v),
    P.lines.map (fun v => φ ∘ v)⟩

/-- The image of a polyhedron under left multiplication by a matrix
(`A*self` / `self.linear_transformation(A)`). -/
def linImage [Semiring R] {d k : ℕ} (A : Matrix (Fin k) (Fin d) R)
    (P : Polyhedron R d) : Polyhedron R k :=
  ⟨P.vertices.map A.mulVec, P.rays.map A.mulVec, P.lines.map A.mulVec⟩

/-- Translating a polyhedron by a vector (`... + image_translation`):
vertices move, rays and lines do not. -/
def translate [Add R] {k : ℕ} (P : Polyhedron R k) (t : Fin k → R) :
    Polyhedron R k :=
  ⟨P.vertices.map (fun v => v + t), P.rays, P.lines⟩

end Polyhedron

/-! ## Result data -/

/-- The data returned by `_affine_hull_projection`
(`AffineHullProjectionData`): the image polyhedron in dimension `k`, the
projection affine map `x ↦ projA *ᵥ x + projb` and the section affine map
`y ↦ sectA *ᵥ y + sectb`. -/
structure ProjData (R : Type*) (d : ℕ) where
  k : ℕ
  image : Polyhedron R k
  projA : Matrix (Fin k) (Fin d) R
  projb : Fin k → R
  sectA : Matrix (Fin d) (Fin k) R
  sectb : Fin d → R

/-- Modelled from the spec: the base ring of the result.  `closure` stands
for the real-algebraic closure `AA`; `sub gens` stands for the smallest
subfield generated by `gens` that embeds into the reals, as produced by
`number_field_elements_from_algebraics(..., embedded=True, minimal=True)`
(not part of the provided source). -/
inductive RingTag (E : Type*)
  | closure
  | sub (gens : List E)
deriving DecidableEq

/-- Result of the routine: either data over the original field `F`, or data
over the extension field `E` (modelling `AA`) together with the tag of the
base ring actually reported. -/
inductive ProjResult (F E : Type*) (d : ℕ)
  | base (data : ProjData F d)
  | ext (data : ProjData E d) (tag : RingTag E)

/-- Failure modes of the routine (spec section 7): empty input, orthogonal
mode on unbounded input, missing field extension; plus the two
never-expected propagated internal failures (rank-deficient Gram-Schmidt
input, unsolvable section system). -/
inductive ProjError
  | emptyPolyhedron
  | notCompact
  | extensionNeeded
  | gramSchmidtFailed
  | solveFailed
deriving DecidableEq

/-! ## Computable inverse and left-division -/

/-- Computable matrix inverse over a field, `M.inverse()` in the source;
agrees with Mathlib's noncomputable `M⁻¹`. -/
def cInv [Field R] [DecidableEq R] {n : ℕ} (M : Matrix (Fin n) (Fin n) R) :
    Matrix (Fin n) (Fin n) R :=
  M.det⁻¹ • M.adjugate

theorem cInv_eq_inv [Field R] [DecidableEq R] {n : ℕ}
    (M : Matrix (Fin n) (Fin n) R) : cInv M = M⁻¹ := by
  rw [Matrix.inv_def, cInv, Ring.inverse_eq_inv']

/-- Modelled from the spec: `D / C` (`solve_left`): a matrix `X` with
`X * C = D` ("built by solving a linear system"), or `none` when the
computed candidate does not solve the system (the source's `ValueError`).
The solution is unique when it exists and `C` has full row rank, so the
candidate formula below returns exactly the source's solution. -/
def solveLeft [Field R] [DecidableEq R] {k n m : ℕ}
    (C : Matrix (Fin k) (Fin n) R) (D : Matrix (Fin m) (Fin n) R) :
    Option (Matrix (Fin m) (Fin k) R) :=
  let X := D * C.transpose * cInv (C * C.transpose)
  if X * C = D then some X else none

/-! ## The two nontrivial branches -/

/-- The common tail of the orthogonal/orthonormal branch (source lines
2830-2845), given the Gram-Schmidt rows `arows` and the first affine-basis
vertex `v0`: projection `(A, A*(-v0))`, image `A*P + A*(-v0)`, section
`(Aᵀ(AAᵀ)⁻¹, v0)`. -/
def orthData [Field R] [DecidableEq R] {d : ℕ} (P : Polyhedron R d)
    (arows : List (Fin d → R)) (v0 : Fin d → R) : ProjData R d :=
  let A := matOfRows arows
  let t := A.mulVec (-v0)
  { k := arows.length
    image := (P.linImage A).translate t
    projA := A
    projb := t
    sectA := A.transpose * cInv (A * A.transpose)
    sectb := v0 }

/-- The coordinate-selection matrix on the pivot columns (`A` of source
lines 2861-2862). -/
def selMatrix (R : Type*) [Zero R] [One R] {d : ℕ} (piv : List ℕ) :
    Matrix (Fin piv.length) (Fin d) R :=
  Matrix.of fun i j => if piv.get i = (j : ℕ) then 1 else 0

/-- The section's linear part in the non-orthogonal branch: solved from
`B * (A * Mᵀ) = Mᵀ` when the dimension is positive (`M.transpose()/(A*M.transpose())`),
and the unique `d×0` matrix (`matrix(self.ambient_dim(), 0)`) for
dimension 0. -/
def nonOrthSection [Field R] [DecidableEq R] {d : ℕ} (P : Polyhedron R d) :
    Option (Matrix (Fin d) (Fin (pivotsL P.gens).length) R) :=
  if (pivotsL P.gens).length = 0 then some 0
  else
    solveLeft (selMatrix R (pivotsL P.gens) * (matOfRows P.gens).transpose)
      (matOfRows P.gens).transpose

/-- The non-orthogonal branch (source lines 2846-2877): coordinate-selection
projection on the pivot columns of the displacement matrix with zero
translation, image `A*P`, and section translation
`v0 - section(projection(v0) + 0)`. -/
def nonOrthProj [Field R] [DecidableEq R] {d : ℕ} (P : Polyhedron R d) :
    Except ProjError (ProjData R d) :=
  match nonOrthSection P with
  | none => .error .solveFailed
  | some B =>
    .ok { k := (pivotsL P.gens).length
          image := P.linImage (selMatrix R (pivotsL P.gens))
          projA := selMatrix R (pivotsL P.gens)
          projb := 0
          sectA := B
          sectb := P.vzero
            - B.mulVec ((selMatrix R (pivotsL P.gens)).mulVec P.vzero + 0) }

/-- All matrix entries of a list of rows (`A.list()`). -/
def rowsEntries {d : ℕ} (rows : List (Fin d → R)) : List R :=
  rows.flatMap fun v => (List.finRange d).map v

/-! ## The routine -/

/-- The options of `_affine_hull_projection` that this embedding models
(`as_convex_set`, `as_affine_map` and `as_section_map` are all taken as
`True`, as in `return_all_data`). -/
structure ProjOpts where
  orthogonal : Bool
  orthonormal : Bool
  extendRing : Bool
  minimal : Bool
deriving DecidableEq

/-- Shallow embedding of `_affine_hull_projection` (source lines
2789-2879).  `φ` is the embedding of the base field into the extension
field `E` modelling `AA`; `oF`, `oE` are the square-root capabilities of
the two fields; `ab` is the affine basis chosen by `an_affine_basis`
(modelled from the spec: "Choose an affine basis of size k+1 among the
vertices (any ...)" — the choice is passed as a parameter). -/
def affineHullProjection [Field F] [DecidableEq F] [Field E] [DecidableEq E]
    {d : ℕ} (φ : F →+* E) (oF : SqrtOracle F) (oE : SqrtOracle E)
    (P : Polyhedron F d) (ab : List (Fin d → F)) (opts : ProjOpts) :
    Except ProjError (ProjResult F E d) :=
  if P.vertices.isEmpty then .error .emptyPolyhedron
  else if P.dim = d then
    .ok (.base { k := d, image := P, projA := 1, projb := 0,
                 sectA := 1, sectb := 0 })
  else if opts.orthogonal || opts.orthonormal then
    if !P.isCompact then .error .notCompact
    else
      match gramSchmidt oF opts.orthonormal
          (ab.tail.map (fun v => v - ab.headD 0)) with
      | .ok arows => .ok (.base (orthData P arows (ab.headD 0)))
      | .error .rankDeficient => .error .gramSchmidtFailed
      | .error .sqrtMissing =>
        if !opts.extendRing then .error .extensionNeeded
        else
          match gramSchmidt oE opts.orthonormal
              ((ab.tail.map (fun v => v - ab.headD 0)).map (fun v => φ ∘ v)) with
          | .ok arowsE =>
            .ok (.ext (orthData (P.mapRing φ) arowsE (φ ∘ ab.headD 0))
                  (if opts.minimal then .sub (rowsEntries arowsE)
                   else .closure))
          | .error _ => .error .gramSchmidtFailed
  else
    (nonOrthProj P).map .base

/-! ## Basic lemmas on sums and dot products -/

theorem list_sum_map_get {α M : Type*} [AddCommMonoid M] (l : List α) (f : α → M) :
    (l.map f).sum = ∑ i : Fin l.length, f (l.get i) := by
  induction l with
  | nil => simp
  | cons a l ih =>
    rw [List.map_cons, List.sum_cons, ih]
    exact (Fin.sum_univ_succ fun i : Fin (l.length + 1) => f ((a :: l).get i)).symm

theorem submodule_list_sum_mem {M : Type*} [Semiring R] [AddCommMonoid M]
    [Module R M] (S : Submodule R M) (l : List M) (h : ∀ x ∈ l, x ∈ S) :
    l.sum ∈ S := by
  induction l with
  | nil => simp
  | cons a l ih =>
    rw [List.sum_cons]
    exact S.add_mem (h a (List.mem_cons_self a l)) (ih fun x hx => h x (List.mem_cons_of_mem a hx))

variable {d : ℕ}

theorem dotP_add_left [Semiring R] (u v w : Fin d → R) :
    dotP (u + v) w = dotP u w + dotP v w := by
  unfold dotP
  rw [← Finset.sum_add_distrib]
  exact Finset.sum_congr rfl fun i _ => by simp [add_mul]

theorem dotP_sub_left [Ring R] (u v w : Fin d → R) :
    dotP (u - v) w = dotP u w - dotP v w := by
  unfold dotP
  rw [← Finset.sum_sub_distrib]
  exact Finset.sum_congr rfl fun i _ => by simp [sub_mul]

theorem dotP_smul_left [Semiring R] (c : R) (u v : Fin d → R) :
    dotP (c • u) v = c * dotP u v := by
  unfold dotP
  rw [Finset.mul_sum]
  exact Finset.sum_congr rfl fun i _ => by simp [mul_assoc]

theorem dotP_smul_right [CommSemiring R] (c : R) (u v : Fin d → R) :
    dotP u (c • v) = c * dotP u v := by
  rw [dotP_comm, dotP_smul_left, dotP_comm]

theorem dotP_zero_left [Semiring R] (v : Fin d → R) : dotP 0 v = 0 := by
  simp [dotP]

theorem dotP_list_sum_left [Semiring R] (l : List (Fin d → R)) (v : Fin d → R) :
    dotP l.sum v = (l.map (fun u => dotP u v)).sum := by
  induction l with
  | nil => simp [dotP_zero_left]
  | cons a l ih => simp [dotP_add_left, ih]

/-! ## Orthogonality invariant of Gram-Schmidt -/

/-- The rows produced by a successful Gram-Schmidt run: pairwise orthogonal
with nonzero self-inner-products. -/
def OrthRows [Semiring R] (l : List (Fin d → R)) : Prop :=
  l.Pairwise (fun u v => dotP u v = 0) ∧ ∀ a ∈ l, dotP a a ≠ 0

theorem dotP_gsStep_get [Field R] (done : List (Fin d → R))
    (hpw : done.Pairwise (fun u v => dotP u v = 0))
    (hnz : ∀ u ∈ done, dotP u u ≠ 0) (m : Fin d → R) (p : Fin done.length) :
    dotP (gsStep done m) (done.get p) = 0 := by
  unfold gsStep
  rw [dotP_sub_left, dotP_list_sum_left, List.map_map, list_sum_map_get]
  have hterm : ∀ q : Fin done.length,
      ((fun u => dotP u (done.get p)) ∘ fun u => (dotP m u / dotP u u) • u) (done.get q)
        = (dotP m (done.get q) / dotP (done.get q) (done.get q)) * dotP (done.get q) (done.get p) := by
    intro q
    simp [Function.comp, dotP_smul_left]
  have hsingle : ∑ q : Fin done.length,
      ((fun u => dotP u (done.get p)) ∘ fun u => (dotP m u / dotP u u) • u) (done.get q)
        = dotP m (done.get p) := by
    rw [Finset.sum_eq_single p]
    · rw [hterm]
      exact div_mul_cancel₀ _ (hnz _ (List.get_mem done p.1 p.2))
    · intro q _ hqp
      rw [hterm]
      rcases lt_or_gt_of_ne hqp with hlt | hgt
      · have h0 : dotP (done.get q) (done.get p) = 0 :=
          List.pairwise_iff_get.mp hpw q p hlt
        rw [h0, mul_zero]
      · have h0 : dotP (done.get p) (done.get q) = 0 :=
          List.pairwise_iff_get.mp hpw p q hgt
        rw [dotP_comm (done.get q) (done.get p), h0, mul_zero]
    · intro hp
      exact absurd (Finset.mem_univ p) hp
  rw [hsingle, sub_self]

theorem dotP_gsStep_mem [Field R] (done : List (Fin d → R))
    (hpw : done.Pairwise (fun u v => dotP u v = 0))
    (hnz : ∀ u ∈ done, dotP u u ≠ 0) (m : Fin d → R) (u : Fin d → R)
    (hu : u ∈ done) : dotP (gsStep done m) u = 0 := by
  obtain ⟨p, hp⟩ := List.get_of_mem hu
  rw [← hp]
  exact dotP_gsStep_get done hpw hnz m p

theorem gsGo_orthRows [Field R] [DecidableEq R] :
    ∀ (ms done as : List (Fin d → R)), OrthRows done →
      gsGo done ms = some as → OrthRows (done ++ as)
  | [], done, as, hd, h => by
    simp only [gsGo, Option.some.injEq] at h
    rw [← h, List.append_nil]
    exact hd
  | m :: ms, done, as, hd, h => by
    simp only [gsGo] at h
    split at h
    · exact absurd h (by simp)
    · rename_i hnz0
      split at h
      · exact absurd h (by simp)
      · rename_i rest hrest
        have has : as = gsStep done m :: rest := by
          simpa using h.symm
        have hstep : OrthRows (done ++ [gsStep done m]) := by
          constructor
          · rw [List.pairwise_append]
            refine ⟨hd.1, List.pairwise_singleton _ _, ?_⟩
            intro u hu v hv
            rw [List.mem_singleton] at hv
            subst hv
            rw [dotP_comm]
            exact dotP_gsStep_mem done hd.1 hd.2 m u hu
          · intro a ha
            rcases List.mem_append.mp ha with ha | ha
            · exact hd.2 a ha
            · rw [List.mem_singleton] at ha
              subst ha
              exact hnz0
        have := gsGo_orthRows ms (done ++ [gsStep done m]) rest hstep hrest
        rw [List.append_assoc, List.singleton_append] at this
        rw [has]
        exact this

theorem gsGo_span [Field R] [DecidableEq R] :
    ∀ (ms done as : List (Fin d → R)), gsGo done ms = some as →
      ∀ m ∈ ms, m ∈ Submodule.span R {u : Fin d → R | u ∈ done ++ as}
  | [], _, _, _, m, hm => absurd hm (List.not_mem_nil m)
  | m :: ms, done, as, h, x, hx => by
    simp only [gsGo] at h
    split at h
    · exact absurd h (by simp)
    · split at h
      · exact absurd h (by simp)
      · rename_i rest hrest
        have has : as = gsStep done m :: rest := by
          simpa using h.symm
        subst has
        rcases List.mem_cons.mp hx with hx | hx
        · subst hx
          have hsum : x = gsStep done x
              + (done.map (fun u => (dotP x u / dotP u u) • u)).sum := by
            unfold gsStep
            rw [sub_add_cancel]
          have hmem : gsStep done x
              + (done.map (fun u => (dotP x u / dotP u u) • u)).sum
              ∈ Submodule.span R {u : Fin d → R | u ∈ done ++ gsStep done x :: rest} := by
            refine Submodule.add_mem _ ?_ ?_
            · exact Submodule.subset_span (by simp)
            · refine submodule_list_sum_mem _ _ ?_
              intro y hy
              rw [List.mem_map] at hy
              obtain ⟨u, hu, rfl⟩ := hy
              exact Submodule.smul_mem _ _ (Submodule.subset_span (by simp [hu]))
          rw [← hsum] at hmem
          exact hmem
        · have := gsGo_span ms (done ++ [gsStep done m]) rest hrest x hx
          rw [List.append_assoc, List.singleton_append] at this
          exact this

/-! ## Normalization lemmas -/

theorem normalizeRows_mem_scale [Field R] (oracle : SqrtOracle R) :
    ∀ (l ns : List (Fin d → R)), normalizeRows oracle l = some ns →
      ∀ n ∈ ns, ∃ (c : R) (a : Fin d → R), a ∈ l ∧ n = c • a
  | [], ns, h, n, hn => by
    simp only [normalizeRows, Option.some.injEq] at h
    rw [← h] at hn
    exact absurd hn (List.not_mem_nil n)
  | a :: l, ns, h, n, hn => by
    simp only [normalizeRows] at h
    split at h
    · rename_i s ns' hs hns
      rw [Option.some.injEq] at h
      rw [← h] at hn
      rcases List.mem_cons.mp hn with hn | hn
      · exact ⟨s⁻¹, a, List.mem_cons_self a l, hn⟩
      · obtain ⟨c, b, hb, rfl⟩ := normalizeRows_mem_scale oracle l ns' hns n hn
        exact ⟨c, b, List.mem_cons_of_mem a hb, rfl⟩
    · exact absurd h (by simp)

theorem normalizeRows_pairwise [Field R] (oracle : SqrtOracle R) :
    ∀ (l ns : List (Fin d → R)),
      l.Pairwise (fun u v => dotP u v = 0) →
      normalizeRows oracle l = some ns →
      ns.Pairwise (fun u v => dotP u v = 0)
  | [], ns, _, h => by
    simp only [normalizeRows, Option.some.injEq] at h
    rw [← h]
    exact List.Pairwise.nil
  | a :: l, ns, hpw, h => by
    simp only [normalizeRows] at h
    split at h
    · rename_i s ns' hs hns
      rw [Option.some.injEq] at h
      rw [← h]
      rw [List.pairwise_cons] at hpw
      refine List.Pairwise.cons ?_ (normalizeRows_pairwise oracle l ns' hpw.2 hns)
      intro n hn
      obtain ⟨c, b, hb, rfl⟩ := normalizeRows_mem_scale oracle l ns' hns n hn
      rw [dotP_smul_left, dotP_smul_right, hpw.1 b hb, mul_zero, mul_zero]
    · exact absurd h (by simp)

theorem normalizeRows_norm_one [Field R] (oracle : SqrtOracle R) :
    ∀ (l ns : List (Fin d → R)), (∀ a ∈ l, dotP a a ≠ 0) →
      normalizeRows oracle l = some ns → ∀ n ∈ ns, dotP n n = 1
  | [], ns, _, h, n, hn => by
    simp only [normalizeRows, Option.some.injEq] at h
    rw [← h] at hn
    exact absurd hn (List.not_mem_nil n)
  | a :: l, ns, hnz, h, n, hn => by
    simp only [normalizeRows] at h
    split at h
    · rename_i s ns' hs hns
      rw [Option.some.injEq] at h
      rw [← h] at hn
      rcases List.mem_cons.mp hn with hn | hn
      · subst hn
        have hss : s * s = dotP a a := oracle.sqrt_mul_self _ s hs
        have ha : dotP a a ≠ 0 := hnz a (List.mem_cons_self a l)
        have hs0 : s ≠ 0 := by
          intro h0
          rw [h0, mul_zero] at hss
          exact ha hss.symm
        rw [dotP_smul_left, dotP_smul_right, ← hss]
        field_simp
      · exact normalizeRows_norm_one oracle l ns'
          (fun b hb => hnz b (List.mem_cons_of_mem a hb)) hns n hn
    · exact absurd h (by simp)

theorem normalizeRows_span [Field R] (oracle : SqrtOracle R) :
    ∀ (l ns : List (Fin d → R)), (∀ a ∈ l, dotP a a ≠ 0) →
      normalizeRows oracle l = some ns →
      ∀ a ∈ l, a ∈ Submodule.span R {u : Fin d → R | u ∈ ns}
  | [], _, _, _, a, ha => absurd ha (List.not_mem_nil a)
  | a :: l, ns, hnz, h, b, hb => by
    simp only [normalizeRows] at h
    split at h
    · rename_i s ns' hs hns
      rw [Option.some.injEq] at h
      rw [← h]
      rcases List.mem_cons.mp hb with hb | hb
      · subst hb
        have hss : s * s = dotP b b := oracle.sqrt_mul_self _ s hs
        have hb0 : dotP b b ≠ 0 := hnz b (List.mem_cons_self b l)
        have hs0 : s ≠ 0 := by
          intro h0
          rw [h0, mul_zero] at hss
          exact hb0 hss.symm
        have hbb : b = s • (s⁻¹ • b) := by
          rw [smul_smul, mul_inv_cancel₀ hs0, one_smul]
        have hmem : s • (s⁻¹ • b)
            ∈ Submodule.span R {u : Fin d → R | u ∈ s⁻¹ • b :: ns'} :=
          Submodule.smul_mem _ _ (Submodule.subset_span (by simp))
        rwa [← hbb] at hmem
      · have := normalizeRows_span oracle l ns'
          (fun c hc => hnz c (List.mem_cons_of_mem a hc)) hns b hb
        refine Submodule.span_mono ?_ this
        intro u hu
        simp only [Set.mem_setOf_eq] at hu ⊢
        exact List.mem_cons_of_mem _ hu
    · exact absurd h (by simp)

/-! ## Summary lemmas for gramSchmidt -/

theorem gramSchmidt_ok_orthRows [Field R] [DecidableEq R]
    (oracle : SqrtOracle R) (b : Bool) (rows as : List (Fin d → R))
    (h : gramSchmidt oracle b rows = .ok as) : OrthRows as := by
  unfold gramSchmidt at h
  split at h
  · exact absurd h (by simp)
  · rename_i os hos
    have horth : OrthRows os := by
      have := gsGo_orthRows rows [] os ⟨List.Pairwise.nil, by simp⟩ hos
      rwa [List.nil_append] at this
    split at h
    · split at h
      · exact absurd h (by simp)
      · rename_i ns hns
        rw [Except.ok.injEq] at h
        subst h
        refine ⟨normalizeRows_pairwise oracle os ns horth.1 hns, ?_⟩
        intro n hn
        rw [normalizeRows_norm_one oracle os ns horth.2 hns n hn]
        exact one_ne_zero
    · rw [Except.ok.injEq] at h
      subst h
      exact horth

theorem gramSchmidt_ok_norm_one [Field R] [DecidableEq R]
    (oracle : SqrtOracle R) (rows as : List (Fin d → R))
    (h : gramSchmidt oracle true rows = .ok as) : ∀ a ∈ as, dotP a a = 1 := by
  unfold gramSchmidt at h
  split at h
  · exact absurd h (by simp)
  · rename_i os hos
    have horth : OrthRows os := by
      have := gsGo_orthRows rows [] os ⟨List.Pairwise.nil, by simp⟩ hos
      rwa [List.nil_append] at this
    simp only [if_true] at h
    split at h
    · exact absurd h (by simp)
    · rename_i ns hns
      rw [Except.ok.injEq] at h
      subst h
      exact normalizeRows_norm_one oracle os ns horth.2 hns

theorem gramSchmidt_ok_span [Field R] [DecidableEq R]
    (oracle : SqrtOracle R) (b : Bool) (rows as : List (Fin d → R))
    (h : gramSchmidt oracle b rows = .ok as) :
    ∀ m ∈ rows, m ∈ Submodule.span R {u : Fin d → R | u ∈ as} := by
  unfold gramSchmidt at h
  split at h
  · exact absurd h (by simp)
  · rename_i os hos
    have hspan0 : ∀ m ∈ rows, m ∈ Submodule.span R {u : Fin d → R | u ∈ os} := by
      intro m hm
      have := gsGo_span rows [] os hos m hm
      rwa [List.nil_append] at this
    have horth : OrthRows os := by
      have := gsGo_orthRows rows [] os ⟨List.Pairwise.nil, by simp⟩ hos
      rwa [List.nil_append] at this
    split at h
    · split at h
      · exact absurd h (by simp)
      · rename_i ns hns
        rw [Except.ok.injEq] at h
        subst h
        intro m hm
        have hle : Submodule.span R {u : Fin d → R | u ∈ os}
            ≤ Submodule.span R {u : Fin d → R | u ∈ ns} :=
          Submodule.span_le.mpr (normalizeRows_span oracle os ns horth.2 hns)
        exact hle (hspan0 m hm)
    · rw [Except.ok.injEq] at h
      subst h
      exact hspan0

/-! ## Gram matrix of the orthogonalized rows -/

theorem matOfRows_mul_transpose_apply [Field R] (l : List (Fin d → R))
    (i j : Fin l.length) :
    (matOfRows l * (matOfRows l).transpose) i j = dotP (l.get i) (l.get j) := by
  simp [matOfRows, Matrix.mul_apply, Matrix.transpose_apply, dotP]

theorem gram_diagonal [Field R] [DecidableEq R] (l : List (Fin d → R))
    (h : OrthRows l) :
    matOfRows l * (matOfRows l).transpose
      = Matrix.diagonal (fun i => dotP (l.get i) (l.get i)) := by
  ext i j
  rw [matOfRows_mul_transpose_apply]
  by_cases hij : i = j
  · subst hij
    rw [Matrix.diagonal_apply_eq]
  · rw [Matrix.diagonal_apply_ne _ hij]
    rcases lt_or_gt_of_ne hij with hlt | hgt
    · exact List.pairwise_iff_get.mp h.1 i j hlt
    · rw [dotP_comm]
      exact List.pairwise_iff_get.mp h.1 j i hgt

theorem gram_isUnit_det [Field R] [DecidableEq R] (l : List (Fin d → R))
    (h : OrthRows l) :
    IsUnit (matOfRows l * (matOfRows l).transpose).det := by
  rw [gram_diagonal l h, Matrix.det_diagonal, isUnit_iff_ne_zero]
  rw [Finset.prod_ne_zero_iff]
  intro i _
  exact h.2 _ (List.get_mem l i.1 i.2)

theorem gram_one [Field R] [DecidableEq R] (l : List (Fin d → R))
    (hpw : l.Pairwise (fun u v => dotP u v = 0))
    (hone : ∀ a ∈ l, dotP a a = 1) :
    matOfRows l * (matOfRows l).transpose = 1 := by
  ext i j
  rw [matOfRows_mul_transpose_apply]
  by_cases hij : i = j
  · subst hij
    rw [Matrix.one_apply_eq]
    exact hone _ (List.get_mem l i.1 i.2)
  · rw [Matrix.one_apply_ne hij]
    rcases lt_or_gt_of_ne hij with hlt | hgt
    · exact List.pairwise_iff_get.mp hpw i j hlt
    · rw [dotP_comm]
      exact List.pairwise_iff_get.mp hpw j i hgt

/-! ## Row span and linear combinations -/

theorem mem_span_rows_vecMul [Field R] (l : List (Fin d → R)) (x : Fin d → R)
    (h : x ∈ Submodule.span R {u : Fin d → R | u ∈ l}) :
    ∃ c : Fin l.length → R, Matrix.vecMul c (matOfRows l) = x := by
  refine Submodule.span_induction ?_ ?_ ?_ ?_ h
  · intro u hu
    obtain ⟨p, hp⟩ := List.get_of_mem hu
    refine ⟨Pi.single p 1, ?_⟩
    funext j
    simp only [Matrix.vecMul, Matrix.dotProduct, Pi.single_apply, ite_mul, one_mul,
      zero_mul]
    rw [Finset.sum_ite_eq' Finset.univ p (fun i => matOfRows l i j)]
    simp only [Finset.mem_univ, if_true, matOfRows, Matrix.of_apply]
    exact congrFun hp j
  · exact ⟨0, Matrix.zero_vecMul _⟩
  · rintro x y _ _ ⟨c1, hc1⟩ ⟨c2, hc2⟩
    exact ⟨c1 + c2, by rw [Matrix.add_vecMul, hc1, hc2]⟩
  · rintro r x _ ⟨c, hc⟩
    exact ⟨r • c, by rw [Matrix.vecMul_smul, hc]⟩

theorem vecMul_mem_span [Field R] (l : List (Fin d → R))
    (c : Fin l.length → R) :
    Matrix.vecMul c (matOfRows l) ∈ Submodule.span R {u : Fin d → R | u ∈ l} := by
  have hrw : Matrix.vecMul c (matOfRows l)
      = ∑ i : Fin l.length, c i • l.get i := by
    funext j
    simp only [Matrix.vecMul, Matrix.dotProduct, matOfRows, Matrix.of_apply,
      Finset.sum_apply, Pi.smul_apply, smul_eq_mul]
  rw [hrw]
  refine Submodule.sum_mem _ ?_
  intro i _
  exact Submodule.smul_mem _ _
    (Submodule.subset_span (List.get_mem l i.1 i.2))

/-! ## The orthogonal projector fixes the row span -/

theorem sect_proj_fix [Field R] [DecidableEq R] (l : List (Fin d → R))
    (h : OrthRows l) (x : Fin d → R)
    (hx : x ∈ Submodule.span R {u : Fin d → R | u ∈ l}) :
    ((matOfRows l).transpose
      * cInv (matOfRows l * (matOfRows l).transpose)).mulVec
        ((matOfRows l).mulVec x) = x := by
  obtain ⟨c, hc⟩ := mem_span_rows_vecMul l x hx
  subst hc
  rw [← Matrix.mulVec_transpose]
  have h1 : matOfRows l *ᵥ ((matOfRows l).transpose *ᵥ c)
      = (matOfRows l * (matOfRows l).transpose) *ᵥ c :=
    Matrix.mulVec_mulVec c _ _
  rw [h1, Matrix.mulVec_mulVec]
  have key : (matOfRows l).transpose * cInv (matOfRows l * (matOfRows l).transpose)
      * (matOfRows l * (matOfRows l).transpose) = (matOfRows l).transpose := by
    rw [cInv_eq_inv, Matrix.mul_assoc,
      Matrix.nonsing_inv_mul _ (gram_isUnit_det l h), Matrix.mul_one]
  rw [key]

/-! ## The round-trip property -/

/-- Round trip of a single vector through the returned affine maps:
`section_linear_map (projection_linear_map v + projection_translation)
+ section_translation = v`. -/
def rtData [Semiring R] (data : ProjData R d) (v : Fin d → R) : Prop :=
  data.sectA.mulVec (data.projA.mulVec v + data.projb) + data.sectb = v

/-- Round trip on every vertex of the input polyhedron, for both possible
base rings of the result (vertices are mapped through `φ` when the result
lives over the extension field). -/
def roundTrips [Semiring F] [Semiring E] (φ : F →+* E) (P : Polyhedron F d)
    (r : ProjResult F E d) : Prop :=
  (∀ data, r = .base data → ∀ v ∈ P.vertices, rtData data v)
  ∧ (∀ data tag, r = .ext data tag → ∀ v ∈ P.vertices, rtData data (φ ∘ v))

theorem roundTrips_base [Semiring F] [Semiring E] (φ : F →+* E)
    (P : Polyhedron F d) (data : ProjData F d)
    (h : ∀ v ∈ P.vertices, rtData data v) :
    roundTrips φ P (.base data) := by
  constructor
  · intro data' hd
    injection hd with h1
    subst h1
    exact h
  · intro data' tag hd
    exact absurd hd (by simp)

theorem roundTrips_ext [Semiring F] [Semiring E] (φ : F →+* E)
    (P : Polyhedron F d) (data : ProjData E d) (tag : RingTag E)
    (h : ∀ v ∈ P.vertices, rtData data (φ ∘ v)) :
    roundTrips φ P (.ext data tag) := by
  constructor
  · intro data' hd
    exact absurd hd (by simp)
  · intro data' tag' hd
    injection hd with h1 h2
    subst h1
    exact h

theorem rtData_orthData [Field R] [DecidableEq R] (P : Polyhedron R d)
    (rows : List (Fin d → R)) (v0 : Fin d → R) (h : OrthRows rows)
    (v : Fin d → R)
    (hx : v - v0 ∈ Submodule.span R {u : Fin d → R | u ∈ rows}) :
    rtData (orthData P rows v0) v := by
  unfold rtData orthData
  simp only
  have hsub : (matOfRows rows).mulVec v + (matOfRows rows).mulVec (-v0)
      = (matOfRows rows).mulVec (v - v0) := by
    rw [← Matrix.mulVec_add, sub_eq_add_neg]
  rw [hsub, sect_proj_fix rows h _ hx, sub_add_cancel]

/-! ## The non-orthogonal branch -/

theorem pivotsGo_eq_nil_zero [Field R] [DecidableEq R] :
    ∀ (fuel j : ℕ) (rows : List (Fin d → R)),
      pivotsGo rows j fuel = [] →
      ∀ r ∈ rows, ∀ i : Fin d, j ≤ i.1 → i.1 < j + fuel → r i = 0
  | 0, j, rows, h, r, hr, i, hji, hlt => absurd hlt (by omega)
  | fuel + 1, j, rows, h, r, hr, i, hji, hlt => by
    simp only [pivotsGo] at h
    split at h
    · rename_i hjd
      split at h
      · exact absurd h (by simp)
      · rename_i hfind
        by_cases hij : i.1 = j
        · have hz := List.find?_eq_none.mp hfind r hr
          simp only [decide_eq_true_eq, not_not] at hz
          have : i = ⟨j, hjd⟩ := Fin.ext hij
          rw [this]
          exact hz
        · exact pivotsGo_eq_nil_zero fuel (j + 1) rows h r hr i (by omega) (by omega)
    · rename_i hjd
      have : i.1 < d := i.isLt
      omega

theorem pivotsL_nil_zero [Field R] [DecidableEq R] (rows : List (Fin d → R))
    (h : pivotsL rows = []) : ∀ r ∈ rows, r = 0 := by
  intro r hr
  funext i
  have hi : i.1 < 0 + d := by
    have := i.isLt
    omega
  exact pivotsGo_eq_nil_zero d 0 rows h r hr i (Nat.zero_le _) hi

theorem mulVec_column [Semiring R] {k m n : ℕ} (B : Matrix (Fin m) (Fin k) R)
    (C : Matrix (Fin k) (Fin n) R) (p : Fin n) :
    B.mulVec (fun i => C i p) = fun i => (B * C) i p := by
  funext i
  simp [Matrix.mulVec, Matrix.dotProduct, Matrix.mul_apply]

theorem nonOrthSection_solves [Field R] [DecidableEq R] (P : Polyhedron R d)
    (B : Matrix (Fin d) (Fin (pivotsL P.gens).length) R)
    (h : nonOrthSection P = some B) :
    B * (selMatrix R (pivotsL P.gens) * (matOfRows P.gens).transpose)
      = (matOfRows P.gens).transpose := by
  unfold nonOrthSection at h
  by_cases hk : (pivotsL P.gens).length = 0
  · rw [if_pos hk, Option.some.injEq] at h
    subst h
    have hzero : ∀ r ∈ P.gens, r = (0 : Fin d → R) :=
      pivotsL_nil_zero _ (List.length_eq_zero.mp hk)
    have hM : matOfRows P.gens = 0 := by
      ext i j
      have := hzero _ (List.get_mem P.gens i.1 i.2)
      rw [matOfRows, Matrix.of_apply, this]
      rfl
    rw [hM]
    simp
  · rw [if_neg hk] at h
    simp only [solveLeft] at h
    split at h
    · rename_i hcond
      rw [Option.some.injEq] at h
      rw [← h]
      exact hcond
    · exact absurd h (by simp)

theorem solve_roundtrip_row [Field R] {k n : ℕ} (A : Matrix (Fin k) (Fin d) R)
    (M : Matrix (Fin n) (Fin d) R) (B : Matrix (Fin d) (Fin k) R)
    (hBC : B * (A * M.transpose) = M.transpose) (p : Fin n) :
    B.mulVec (A.mulVec (M p)) = M p := by
  have h1 : A.mulVec (M p) = fun i => (A * M.transpose) i p := by
    have h0 : M p = fun j => M.transpose j p := rfl
    rw [h0, mulVec_column]
  rw [h1, mulVec_column, hBC]
  rfl

theorem rtData_nonOrth [Field R] [DecidableEq R] (P : Polyhedron R d)
    (data : ProjData R d) (h : nonOrthProj P = .ok data) :
    ∀ v ∈ P.vertices, rtData data v := by
  intro v hv
  simp only [nonOrthProj] at h
  split at h
  · exact absurd h (by simp)
  · rename_i B hB
    rw [Except.ok.injEq] at h
    subst h
    have hBC := nonOrthSection_solves P B hB
    have hfix : ∀ p : Fin P.gens.length,
        B.mulVec ((selMatrix R (pivotsL P.gens)).mulVec (P.gens.get p))
          = P.gens.get p := by
      intro p
      exact solve_roundtrip_row (selMatrix R (pivotsL P.gens))
        (matOfRows P.gens) B hBC p
    rcases hV : P.vertices with _ | ⟨w, tl⟩
    · rw [hV] at hv
      exact absurd hv (List.not_mem_nil v)
    · have hw : P.vzero = w := by
        unfold Polyhedron.vzero
        rw [hV]
        rfl
      rw [hV] at hv
      unfold rtData
      simp only [add_zero, hw]
      rcases List.mem_cons.mp hv with hvw | hvt
      · subst hvw
        rw [add_comm, sub_add_cancel]
      · have hmem : v - w ∈ P.gens := by
          unfold Polyhedron.gens
          refine List.mem_append.mpr (Or.inl (List.mem_append.mpr (Or.inl ?_)))
          rw [hw, hV]
          exact List.mem_map.mpr ⟨v, hvt, rfl⟩
        obtain ⟨p, hp⟩ := List.get_of_mem hmem
        have h2 : B.mulVec ((selMatrix R (pivotsL P.gens)).mulVec v)
            - B.mulVec ((selMatrix R (pivotsL P.gens)).mulVec w) = v - w := by
          rw [← Matrix.mulVec_sub, ← Matrix.mulVec_sub, ← hp]
          exact hfix p
        calc B.mulVec ((selMatrix R (pivotsL P.gens)).mulVec v)
              + (w - B.mulVec ((selMatrix R (pivotsL P.gens)).mulVec w))
            = B.mulVec ((selMatrix R (pivotsL P.gens)).mulVec v)
              - B.mulVec ((selMatrix R (pivotsL P.gens)).mulVec w) + w := by abel
          _ = v - w + w := by rw [h2]
          _ = v := sub_add_cancel v w

/-! ## Transport through the field embedding -/

theorem span_map_ring [Field F] [Field E] (φ : F →+* E)
    (l : List (Fin d → F)) (x : Fin d → F)
    (hx : x ∈ Submodule.span F {u : Fin d → F | u ∈ l}) :
    (φ ∘ x) ∈ Submodule.span E
      {u : Fin d → E | u ∈ l.map (fun v => φ ∘ v)} := by
  refine Submodule.span_induction ?_ ?_ ?_ ?_ hx
  · intro u hu
    exact Submodule.subset_span (List.mem_map.mpr ⟨u, hu, rfl⟩)
  · have h0 : (φ ∘ (0 : Fin d → F)) = 0 := by
      funext i
      simp
    rw [h0]
    exact Submodule.zero_mem _
  · intro x y _ _ hx hy
    have hadd : (φ ∘ (x + y)) = φ ∘ x + φ ∘ y := by
      funext i
      simp
    rw [hadd]
    exact Submodule.add_mem _ hx hy
  · intro r x _ hx
    have hsmul : (φ ∘ (r • x)) = φ r • (φ ∘ x) := by
      funext i
      simp
    rw [hsmul]
    exact Submodule.smul_mem _ _ hx

/-! ## Claim 1: the round trip on vertices -/

/-- C1.  For every non-empty polytope and every supported option
combination, applying the returned section map after the returned
projection map to any vertex `v` of the input polytope yields exactly `v`:
`section_linear_map (projection_linear_map v + projection_translation)
+ section_translation = v` (with `v` read in the extension field when the
base ring was extended).  The hypothesis `hspan` states that the affine
basis passed in for the orthogonal/orthonormal modes spans the affine
hull, which is the defining property of `an_affine_basis`. -/
theorem claim1_roundtrip [Field F] [DecidableEq F] [Field E] [DecidableEq E]
    (φ : F →+* E) (oF : SqrtOracle F) (oE : SqrtOracle E)
    (P : Polyhedron F d) (ab : List (Fin d → F)) (opts : ProjOpts)
    (hspan : (opts.orthogonal || opts.orthonormal) = true →
      ∀ v ∈ P.vertices, v - ab.headD 0 ∈ Submodule.span F
        {u : Fin d → F | u ∈ ab.tail.map (fun w => w - ab.headD 0)})
    (r : ProjResult F E d)
    (hr : affineHullProjection φ oF oE P ab opts = .ok r) :
    roundTrips φ P r := by
  unfold affineHullProjection at hr
  split at hr
  · simp at hr
  split at hr
  · rw [Except.ok.injEq] at hr
    subst hr
    refine roundTrips_base φ P _ ?_
    intro v hv
    unfold rtData
    simp
  split at hr
  · rename_i hflag
    split at hr
    · simp at hr
    rename_i hcomp
    split at hr
    · rename_i arows hgs
      rw [Except.ok.injEq] at hr
      subst hr
      refine roundTrips_base φ P _ ?_
      intro v hv
      refine rtData_orthData P arows (ab.headD 0)
        (gramSchmidt_ok_orthRows oF opts.orthonormal _ arows hgs) v ?_
      have h1 := hspan hflag v hv
      have hle := Submodule.span_le.mpr
        (gramSchmidt_ok_span oF opts.orthonormal _ arows hgs)
      exact hle h1
    · simp at hr
    · rename_i hgsF
      split at hr
      · simp at hr
      split at hr
      · rename_i arowsE hgsE
        rw [Except.ok.injEq] at hr
        subst hr
        refine roundTrips_ext φ P _ _ ?_
        intro v hv
        refine rtData_orthData (P.mapRing φ) arowsE (φ ∘ ab.headD 0)
          (gramSchmidt_ok_orthRows oE opts.orthonormal _ arowsE hgsE)
          (φ ∘ v) ?_
        have h1 := hspan hflag v hv
        have h2 := span_map_ring φ _ _ h1
        have hsub : (φ ∘ v) - (φ ∘ ab.headD 0) = φ ∘ (v - ab.headD 0) := by
          funext i
          simp
        rw [hsub]
        have hle := Submodule.span_le.mpr
          (gramSchmidt_ok_span oE opts.orthonormal _ arowsE hgsE)
        exact hle h2
      · simp at hr
  · cases hno : nonOrthProj P with
    | error e =>
      rw [hno] at hr
      simp [Except.map] at hr
    | ok data =>
      rw [hno] at hr
      simp only [Except.map, Except.ok.injEq] at hr
      subst hr
      exact roundTrips_base φ P data (rtData_nonOrth P data hno)

/-! ## Concrete square-root oracles -/

/-- Exhaustive-search square root on naturals (kernel-reducible). -/
def natSqrtFind (n : ℕ) : Option ℕ :=
  (List.range (n + 1)).find? (fun k => decide (k * k = n))

theorem natSqrtFind_sound (n k : ℕ) (h : natSqrtFind n = some k) :
    k * k = n := by
  have := List.find?_some h
  simpa using this

/-- The square-root capability of `ℚ`: a square root is returned exactly
for squares of rationals. -/
def ratOracle : SqrtOracle ℚ where
  trySqrt q :=
    if 0 ≤ q.num then
      match natSqrtFind q.num.toNat, natSqrtFind q.den with
      | some n, some m => some ((n : ℚ) / (m : ℚ))
      | _, _ => none
    else none
  sqrt_mul_self := by
    intro x r h
    dsimp only at h
    by_cases hx : 0 ≤ x.num
    · rw [if_pos hx] at h
      split at h
      · rename_i n m hn hm
        rw [Option.some.injEq] at h
        have hnn : (n : ℕ) * n = x.num.toNat := natSqrtFind_sound _ _ hn
        have hmm : (m : ℕ) * m = x.den := natSqrtFind_sound _ _ hm
        rw [← h, div_mul_div_comm]
        have hcast1 : ((n : ℚ)) * (n : ℚ) = ((x.num.toNat : ℕ) : ℚ) := by
          rw [← hnn]
          push_cast
          ring
        have hcast2 : ((m : ℚ)) * (m : ℚ) = ((x.den : ℕ) : ℚ) := by
          rw [← hmm]
          push_cast
          ring
        rw [hcast1, hcast2]
        have htn : ((x.num.toNat : ℕ) : ℚ) = ((x.num : ℤ) : ℚ) := by
          exact_mod_cast congrArg (fun z : ℤ => (z : ℚ)) (Int.toNat_of_nonneg hx)
        rw [htn]
        exact Rat.num_div_den x
      · exact absurd h (by simp)
    · rw [if_neg hx] at h
      exact absurd h (by simp)

/-- A sound square-root oracle that looks the root up in a finite list of
candidates. -/
def oracleOfList (R : Type*) [Field R] [DecidableEq R] (l : List R) :
    SqrtOracle R where
  trySqrt x := l.find? (fun r => decide (r * r = x))
  sqrt_mul_self := by
    intro x r h
    have := List.find?_some h
    simpa using this

/-! ## Adjoining a square root of two to a field -/

/-- No rational squares to 2, so adjoining a square root of 2 to the
rationals is a proper field extension (the spec's Scenario C situation). -/
theorem rat_sq_ne_two (q : ℚ) : q * q ≠ 2 := by
  intro hq
  have h2 : ((q : ℝ)) ^ 2 = 2 := by
    have hcast := congrArg (fun x : ℚ => (x : ℝ)) hq
    push_cast at hcast
    rw [sq]
    exact hcast
  have habs : Real.sqrt 2 = |(q : ℝ)| := by
    rw [← h2, Real.sqrt_sq_eq_abs]
  have hirr : Irrational (Real.sqrt 2) := irrational_sqrt_two
  rw [habs, ← Rat.cast_abs] at hirr
  exact hirr ⟨|q|, rfl⟩

/-- The quadratic extension `K(√2)`, realized as pairs `re + im·√2`: a
concrete, computable model of the field extension that the routine
performs when the base field lacks the needed square roots. -/
structure Adj2 (K : Type*) where
  re : K
  im : K
deriving DecidableEq

namespace Adj2

theorem ext2 {K : Type*} {x y : Adj2 K} (h1 : x.re = y.re)
    (h2 : x.im = y.im) : x = y := by
  cases x
  cases y
  simp only at h1 h2
  rw [h1, h2]

variable {K : Type*} [Field K]

instance : Zero (Adj2 K) := ⟨⟨0, 0⟩⟩
instance : One (Adj2 K) := ⟨⟨1, 0⟩⟩
instance : Add (Adj2 K) := ⟨fun x y => ⟨x.re + y.re, x.im + y.im⟩⟩
instance : Neg (Adj2 K) := ⟨fun x => ⟨-x.re, -x.im⟩⟩
instance : Mul (Adj2 K) :=
  ⟨fun x y => ⟨x.re * y.re + 2 * x.im * y.im, x.re * y.im + x.im * y.re⟩⟩
instance : Inv (Adj2 K) :=
  ⟨fun x => ⟨x.re / (x.re * x.re - 2 * (x.im * x.im)),
    -x.im / (x.re * x.re - 2 * (x.im * x.im))⟩⟩

theorem zero_re : (0 : Adj2 K).re = 0 := rfl
theorem zero_im : (0 : Adj2 K).im = 0 := rfl
theorem one_re : (1 : Adj2 K).re = 1 := rfl
theorem one_im : (1 : Adj2 K).im = 0 := rfl
theorem add_re (x y : Adj2 K) : (x + y).re = x.re + y.re := rfl
theorem add_im (x y : Adj2 K) : (x + y).im = x.im + y.im := rfl
theorem neg_re (x : Adj2 K) : (-x).re = -x.re := rfl
theorem neg_im (x : Adj2 K) : (-x).im = -x.im := rfl
theorem mul_re (x y : Adj2 K) :
    (x * y).re = x.re * y.re + 2 * x.im * y.im := rfl
theorem mul_im (x y : Adj2 K) :
    (x * y).im = x.re * y.im + x.im * y.re := rfl
theorem inv_re (x : Adj2 K) :
    x⁻¹.re = x.re / (x.re * x.re - 2 * (x.im * x.im)) := rfl
theorem inv_im (x : Adj2 K) :
    x⁻¹.im = -x.im / (x.re * x.re - 2 * (x.im * x.im)) := rfl

theorem norm_ne_zero [Fact (∀ q : K, q * q ≠ 2)] (x : Adj2 K) (hx : x ≠ 0) :
    x.re * x.re - 2 * (x.im * x.im) ≠ 0 := by
  have hns : ∀ q : K, q * q ≠ 2 := Fact.out
  intro h0
  by_cases him : x.im = 0
  · have hre : x.re ≠ 0 := by
      intro hre
      exact hx (ext2 (by simp [hre, zero_re]) (by simp [him, zero_im]))
    rw [him] at h0
    simp only [mul_zero, zero_mul, sub_zero] at h0
    exact hre (by
      have := mul_self_eq_zero.mp h0
      exact this)
  · have h0' : x.re * x.re = 2 * (x.im * x.im) := by
      rwa [sub_eq_zero] at h0
    have hq : (x.re / x.im) * (x.re / x.im) = 2 := by
      rw [div_mul_div_comm, h0', mul_div_assoc,
        div_self (mul_ne_zero him him), mul_one]
    exact hns _ hq

/-- The commutative-ring structure of the extension (a definition, not an
instance: the only registered instance on `Adj2 K` is the `Field` built
below, so instance resolution has a unique path). -/
def commRing : CommRing (Adj2 K) where
  add := (· + ·)
  add_assoc := by
    intros
    exact ext2 (by simp [add_re, add_im]; ring) (by simp [add_re, add_im]; ring)
  zero := 0
  zero_add := by
    intros
    exact ext2 (by simp [add_re, zero_re]) (by simp [add_im, zero_im])
  add_zero := by
    intros
    exact ext2 (by simp [add_re, zero_re]) (by simp [add_im, zero_im])
  add_comm := by
    intros
    exact ext2 (by simp [add_re]; ring) (by simp [add_im]; ring)
  mul := (· * ·)
  mul_assoc := by
    intros
    exact ext2 (by simp [mul_re, mul_im]; ring) (by simp [mul_re, mul_im]; ring)
  one := 1
  one_mul := by
    intros
    exact ext2 (by simp [mul_re, one_re, one_im]) (by simp [mul_im, one_re, one_im])
  mul_one := by
    intros
    exact ext2 (by simp [mul_re, one_re, one_im]) (by simp [mul_im, one_re, one_im])
  left_distrib := by
    intros
    exact ext2 (by simp [mul_re, mul_im, add_re, add_im]; ring)
      (by simp [mul_re, mul_im, add_re, add_im]; ring)
  right_distrib := by
    intros
    exact ext2 (by simp [mul_re, mul_im, add_re, add_im]; ring)
      (by simp [mul_re, mul_im, add_re, add_im]; ring)
  zero_mul := by
    intros
    exact ext2 (by simp [mul_re, zero_re, zero_im]) (by simp [mul_im, zero_re, zero_im])
  mul_zero := by
    intros
    exact ext2 (by simp [mul_re, zero_re, zero_im]) (by simp [mul_im, zero_re, zero_im])
  mul_comm := by
    intros
    exact ext2 (by simp [mul_re]; ring) (by simp [mul_im]; ring)
  neg := Neg.neg
  neg_add_cancel := by
    intros
    exact ext2 (by simp [add_re, neg_re, zero_re]) (by simp [add_im, neg_im, zero_im])
  nsmul := nsmulRec
  zsmul := zsmulRec

instance [Fact (∀ q : K, q * q ≠ 2)] : Field (Adj2 K) :=
  { commRing with
    inv := Inv.inv
    exists_pair_ne := ⟨0, 1, by
      intro h
      have := congrArg Adj2.re h
      simp [zero_re, one_re] at this⟩
    mul_inv_cancel := by
      intro x hx
      have hn := norm_ne_zero x hx
      refine ext2 ?_ ?_
      · rw [mul_re, inv_re, inv_im, one_re]
        field_simp
        ring
      · rw [mul_im, inv_re, inv_im, one_im]
        field_simp
        ring
    inv_zero := by
      refine ext2 ?_ ?_
      · rw [inv_re, zero_re]
        simp
      · rw [inv_im, zero_im]
        simp
    nnqsmul := _
    qsmul := _ }

/-- The canonical embedding of the base field into the extension. -/
def baseHom [Fact (∀ q : K, q * q ≠ 2)] : K →+* Adj2 K where
  toFun q := ⟨q, 0⟩
  map_one' := rfl
  map_mul' := by
    intro x y
    exact (ext2 (by simp [mul_re]) (by simp [mul_im])).symm
  map_zero' := rfl
  map_add' := by
    intro x y
    exact (ext2 (by simp [add_re]) (by simp [add_im])).symm

/-- The square root of two in the extension field. -/
def sqrt2 : Adj2 K := ⟨0, 1⟩

end Adj2

instance : Fact (∀ q : ℚ, q * q ≠ 2) := ⟨rat_sq_ne_two⟩

/-- The field `ℚ(√2)`: the extension the source builds (inside `AA`) when
orthonormalizing Scenario C's polytopes over the rationals. -/
abbrev Qrt2 := Adj2 ℚ


/-! ## A small computable field for concrete runs

Exact rational arithmetic is not kernel-reducible in this toolchain
(`Rat.add` and friends are `irreducible`), so the concrete runs use the
five-element field (2 is not a square there, exactly as in `ℚ`) and its
quadratic extension `F5(√2) = GF(25)`.  The claims themselves are proved
over an arbitrary field. -/

/-- The prime field with five elements. -/
structure F5 where
  val : Fin 5
deriving DecidableEq

namespace F5

instance : Fintype F5 :=
  Fintype.ofEquiv (Fin 5) ⟨fun v => ⟨v⟩, F5.val, fun _ => rfl, fun _ => rfl⟩

instance : Zero F5 := ⟨⟨0⟩⟩
instance : One F5 := ⟨⟨1⟩⟩
instance : Add F5 := ⟨fun x y => ⟨x.val + y.val⟩⟩
instance : Neg F5 := ⟨fun x => ⟨-x.val⟩⟩
instance : Mul F5 := ⟨fun x y => ⟨x.val * y.val⟩⟩
instance : Inv F5 := ⟨fun x => ⟨![0, 1, 3, 2, 4] x.val⟩⟩

/-- The commutative-ring structure of `F5` (a definition, not an instance:
the only registered instance on `F5` is the `Field` built below, so
instance resolution has a unique path). -/
def commRing : CommRing F5 where
  add := (· + ·)
  add_assoc := by decide
  zero := 0
  zero_add := by decide
  add_zero := by decide
  add_comm := by decide
  mul := (· * ·)
  mul_assoc := by decide
  one := 1
  one_mul := by decide
  mul_one := by decide
  left_distrib := by decide
  right_distrib := by decide
  zero_mul := by decide
  mul_zero := by decide
  mul_comm := by decide
  neg := Neg.neg
  neg_add_cancel := by decide
  nsmul := nsmulRec
  zsmul := zsmulRec

instance : Field F5 :=
  { commRing with
    inv := Inv.inv
    exists_pair_ne := by decide
    mul_inv_cancel := by decide
    inv_zero := by decide
    nnqsmul := _
    qsmul := _ }

end F5

/-- Two is not a square in the five-element field (the analogue of
`rat_sq_ne_two`). -/
instance : Fact (∀ q : F5, q * q ≠ 2) := ⟨by decide⟩

/-- The field `GF(25) = F5(√2)`, the extension field of the concrete
runs. -/
abbrev F5rt2 := Adj2 F5

/-! ## Concrete inputs used by the witnesses and counterexamples -/

/-- The identity embedding of the rationals (used when no extension is
exercised). -/
def idQ : ℚ →+* ℚ := RingHom.id ℚ

/-- The identity embedding of the five-element field. -/
def idF5 : F5 →+* F5 := RingHom.id F5

/-- The (complete) square-root oracle of the five-element field. -/
def oracF5 : SqrtOracle F5 :=
  oracleOfList F5 [⟨0⟩, ⟨1⟩, ⟨2⟩, ⟨3⟩, ⟨4⟩]

/-- A square-root oracle of `GF(25)` knowing the square root of two. -/
def oracF5rt2 : SqrtOracle F5rt2 := oracleOfList F5rt2 [Adj2.sqrt2]

/-- An (arbitrary-valued) square-root oracle of the rationals, for the
runs that never reach a square root. -/
def oracQ : SqrtOracle ℚ := oracleOfList ℚ []

/-- Scenario A's triangle with vertices `(1,0,0), (0,1,0), (0,0,1)`. -/
def triangleF : Polyhedron F5 3 :=
  ⟨[![1, 0, 0], ![0, 1, 0], ![0, 0, 1]], [], []⟩

/-- An affine basis of the triangle (all three vertices). -/
def triangleFAb : List (Fin 3 → F5) := [![1, 0, 0], ![0, 1, 0], ![0, 0, 1]]

/-- Scenario B's segment with endpoints `(1,0)` and `(0,1)`. -/
def segF : Polyhedron F5 2 := ⟨[![1, 0], ![0, 1]], [], []⟩

/-- An affine basis of the segment (both vertices). -/
def segFAb : List (Fin 2 → F5) := [![1, 0], ![0, 1]]

/-- A full-dimensional unbounded polyhedron: the whole line in ambient
dimension 1. -/
def lineP1 : Polyhedron ℚ 1 := ⟨[![0]], [], [![1]]⟩

/-- A non-full-dimensional unbounded polyhedron: a half-line in the
plane. -/
def halfline2 : Polyhedron ℚ 2 := ⟨[![0, 0]], [![1, 0]], []⟩

/-- The empty polyhedron in the plane. -/
def emptyP2 : Polyhedron ℚ 2 := ⟨[], [], []⟩

def optsDefault : ProjOpts := ⟨false, false, false, false⟩

def optsOrth : ProjOpts := ⟨true, false, false, false⟩

def optsOrthon : ProjOpts := ⟨false, true, false, false⟩

def optsOrthonExt : ProjOpts := ⟨false, true, true, false⟩

def optsOrthonExtMin : ProjOpts := ⟨false, true, true, true⟩

/-- Extract the payload of a successful run, with a default for the error
case. -/
def okD {ε α : Type*} (x : Except ε α) (dflt : α) : α :=
  match x with
  | .ok a => a
  | .error _ => dflt

/-- A default result value (used only to state witnesses). -/
def dfltResult (F E : Type*) [Field F] [Field E] (d : ℕ) : ProjResult F E d :=
  .base ⟨0, ⟨[], [], []⟩, Matrix.of fun _ _ => 0, 0, Matrix.of fun _ _ => 0, 0⟩

/-- A compact full-dimensional polytope: the segment `[0,1]` on the
line. -/
def segF1 : Polyhedron F5 1 := ⟨[![0], ![1]], [], []⟩

/-- Extract the data of a successful base-field run, with a default. -/
def baseData {F E : Type*} {d : ℕ} (x : Except ProjError (ProjResult F E d))
    (dflt : ProjData F d) : ProjData F d :=
  match x with
  | .ok (.base data) => data
  | _ => dflt

/-- A default data value (used only to state counterexamples). -/
def dfltData (R : Type*) [Field R] (d : ℕ) : ProjData R d :=
  ⟨0, ⟨[], [], []⟩, Matrix.of fun _ _ => 0, 0, Matrix.of fun _ _ => 0, 0⟩

/-- Whether a run succeeded. -/
def okBool {ε α : Type*} : Except ε α → Bool
  | .ok _ => true
  | .error _ => false

/-- A square matrix is diagonal: all off-diagonal entries vanish
(`is_diagonal` of the source's test). -/
def isDiagB {R : Type*} [Zero R] {n : ℕ} (M : Matrix (Fin n) (Fin n) R) :
    Prop :=
  ∀ i j, i ≠ j → M i j = 0

instance {R : Type*} [Zero R] [DecidableEq R] {n : ℕ}
    (M : Matrix (Fin n) (Fin n) R) : Decidable (isDiagB M) :=
  inferInstanceAs (Decidable (∀ i j, i ≠ j → M i j = 0))

theorem isDiagB_one {R : Type*} [DecidableEq R] [Semiring R] {n : ℕ} :
    isDiagB (1 : Matrix (Fin n) (Fin n) R) :=
  fun _ _ hij => Matrix.one_apply_ne hij

theorem isDiagB_diagonal {R : Type*} [DecidableEq R] [Semiring R] {n : ℕ}
    (f : Fin n → R) : isDiagB (Matrix.diagonal f) :=
  fun _ _ hij => Matrix.diagonal_apply_ne f hij

/-- The Gram matrix `A·Aᵀ` of the rows of the projection's linear part of a
result is diagonal (the property the source's own test checks, as
`MᵀM` for `M = projection_linear_map.matrix() = Aᵀ`). -/
def gramRowsDiag {F E : Type*} [Field F] [Field E] {d : ℕ}
    (r : ProjResult F E d) : Prop :=
  (∀ data, r = .base data → isDiagB (data.projA * data.projA.transpose))
  ∧ (∀ data tag, r = .ext data tag →
      isDiagB (data.projA * data.projA.transpose))

/-- The Gram matrix `A·Aᵀ` of the rows of the projection's linear part of a
result is the identity. -/
def gramRowsOne {F E : Type*} [Field F] [Field E] {d : ℕ}
    (r : ProjResult F E d) : Prop :=
  (∀ data, r = .base data → data.projA * data.projA.transpose = 1)
  ∧ (∀ data tag, r = .ext data tag → data.projA * data.projA.transpose = 1)

theorem gramRowsDiag_base {F E : Type*} [Field F] [Field E] {d : ℕ}
    (data : ProjData F d)
    (h : isDiagB (data.projA * data.projA.transpose)) :
    gramRowsDiag (E := E) (.base data) := by
  constructor
  · intro data' hd
    injection hd with h1
    subst h1
    exact h
  · intro data' tag hd
    exact absurd hd (by simp)

theorem gramRowsDiag_ext {F E : Type*} [Field F] [Field E] {d : ℕ}
    (data : ProjData E d) (tag : RingTag E)
    (h : isDiagB (data.projA * data.projA.transpose)) :
    gramRowsDiag (F := F) (.ext data tag) := by
  constructor
  · intro data' hd
    exact absurd hd (by simp)
  · intro data' tag' hd
    injection hd with h1 h2
    subst h1
    exact h

theorem gramRowsOne_base {F E : Type*} [Field F] [Field E] {d : ℕ}
    (data : ProjData F d)
    (h : data.projA * data.projA.transpose = 1) :
    gramRowsOne (E := E) (.base data) := by
  constructor
  · intro data' hd
    injection hd with h1
    subst h1
    exact h
  · intro data' tag hd
    exact absurd hd (by simp)

theorem gramRowsOne_ext {F E : Type*} [Field F] [Field E] {d : ℕ}
    (data : ProjData E d) (tag : RingTag E)
    (h : data.projA * data.projA.transpose = 1) :
    gramRowsOne (F := F) (.ext data tag) := by
  constructor
  · intro data' hd
    exact absurd hd (by simp)
  · intro data' tag' hd
    injection hd with h1 h2
    subst h1
    exact h

/-- Modelled from the spec: the field denoted by a ring tag, inside the
extension field `E` that models the real algebraic closure `AA`:
`closure` denotes all of `AA`, and `sub gens` denotes the smallest
subfield generated by `gens` (every subfield of `AA` embeds into the
reals). -/
def RingTag.toSubfield {E : Type*} [Field E] : RingTag E → Subfield E
  | .closure => ⊤
  | .sub gens => Subfield.closure {x : E | x ∈ gens}

end AffineHull

deriving instance DecidableEq for AffineHull.ProjData
deriving instance DecidableEq for AffineHull.ProjResult
deriving instance DecidableEq for Except

namespace AffineHull

variable {F E : Type*} {d : ℕ}

/-! ## Claim 3: the empty polyhedron -/

/-- C3.  For every empty input polyhedron, the affine-hull projection
raises the empty-input error (it returns the error value and nothing
else; no partial result exists in the `Except` model). -/
theorem claim3_empty_error [Field F] [DecidableEq F] [Field E] [DecidableEq E]
    (φ : F →+* E) (oF : SqrtOracle F) (oE : SqrtOracle E)
    (P : Polyhedron F d) (ab : List (Fin d → F)) (opts : ProjOpts)
    (hempty : P.vertices = []) :
    affineHullProjection φ oF oE P ab opts = .error .emptyPolyhedron := by
  unfold affineHullProjection
  rw [if_pos]
  rw [hempty]
  rfl

theorem claim3_empty_error_witness :
    affineHullProjection idQ oracQ oracQ emptyP2 [] optsDefault
      = .error .emptyPolyhedron :=
  claim3_empty_error idQ oracQ oracQ emptyP2 [] optsDefault rfl

/-! ## Claim 4: unbounded input in orthogonal mode -/

/-- C4 counterexample.  The claim says every unbounded polyhedron fails
with the compact-only error when `orthogonal=True`; but the whole line
(unbounded and full-dimensional) instead returns the identity maps,
because the full-dimensional trivial case is decided first. -/
theorem claim4_counterexample :
    lineP1.isCompact = false
    ∧ affineHullProjection idQ oracQ oracQ lineP1 [] optsOrth
        = .ok (.base ⟨1, lineP1, 1, 0, 1, 0⟩) :=
  ⟨rfl, rfl⟩

/-- C4 (amended).  For every unbounded polyhedron that is **not**
full-dimensional, requesting `orthogonal=True` or `orthonormal=True`
fails with the unsupported-operation (compact-only) error. -/
theorem claim4_notcompact_error [Field F] [DecidableEq F] [Field E]
    [DecidableEq E] (φ : F →+* E) (oF : SqrtOracle F) (oE : SqrtOracle E)
    (P : Polyhedron F d) (ab : List (Fin d → F)) (opts : ProjOpts)
    (hne : P.vertices.isEmpty = false) (hdim : P.dim ≠ d)
    (hflag : (opts.orthogonal || opts.orthonormal) = true)
    (hcomp : P.isCompact = false) :
    affineHullProjection φ oF oE P ab opts = .error .notCompact := by
  unfold affineHullProjection
  rw [if_neg (by rw [hne]; exact Bool.false_ne_true), if_neg hdim,
    if_pos hflag, if_pos (by rw [hcomp]; rfl)]

theorem claim4_notcompact_error_witness :
    affineHullProjection idQ oracQ oracQ halfline2 [] optsOrth
      = .error .notCompact :=
  claim4_notcompact_error idQ oracQ oracQ halfline2 [] optsOrth rfl
    (by decide) rfl rfl

/-! ## Claim 6: the full-dimensional trivial case -/

/-- C6.  If the affine-hull dimension equals the ambient dimension, the
routine returns the input polyhedron unchanged together with identity
projection and section maps and zero translations, regardless of the
orthogonal/orthonormal flags. -/
theorem claim6_full_dim_identity [Field F] [DecidableEq F] [Field E]
    [DecidableEq E] (φ : F →+* E) (oF : SqrtOracle F) (oE : SqrtOracle E)
    (P : Polyhedron F d) (ab : List (Fin d → F)) (opts : ProjOpts)
    (hne : P.vertices.isEmpty = false) (hdim : P.dim = d) :
    affineHullProjection φ oF oE P ab opts
      = .ok (.base ⟨d, P, 1, 0, 1, 0⟩) := by
  unfold affineHullProjection
  rw [if_neg (by rw [hne]; exact Bool.false_ne_true), if_pos hdim]

theorem claim6_full_dim_identity_witness :
    affineHullProjection idF5 oracF5 oracF5 segF1 [] optsOrthonExt
      = .ok (.base ⟨1, segF1, 1, 0, 1, 0⟩) :=
  claim6_full_dim_identity idF5 oracF5 oracF5 segF1 [] optsOrthonExt
    (by decide) (by decide)

/-! ## Claim 10: the trivial case is decided before the compactness check -/

/-- C10.  On an unbounded full-dimensional polyhedron, calling with
`orthogonal=True` or `orthonormal=True` does not raise the compact-only
error: the full-dimensional trivial case is decided first and the
identity maps are returned. -/
theorem claim10_fulldim_before_compact [Field F] [DecidableEq F] [Field E]
    [DecidableEq E] (φ : F →+* E) (oF : SqrtOracle F) (oE : SqrtOracle E)
    (P : Polyhedron F d) (ab : List (Fin d → F)) (opts : ProjOpts)
    (hne : P.vertices.isEmpty = false) (hdim : P.dim = d)
    (_hcomp : P.isCompact = false)
    (_hflag : (opts.orthogonal || opts.orthonormal) = true) :
    affineHullProjection φ oF oE P ab opts
      = .ok (.base ⟨d, P, 1, 0, 1, 0⟩) := by
  unfold affineHullProjection
  rw [if_neg (by rw [hne]; exact Bool.false_ne_true), if_pos hdim]

theorem claim10_fulldim_before_compact_witness :
    affineHullProjection idQ oracQ oracQ lineP1 [] optsOrth
      = .ok (.base ⟨1, lineP1, 1, 0, 1, 0⟩) :=
  claim10_fulldim_before_compact idQ oracQ oracQ lineP1 [] optsOrth
    rfl rfl rfl rfl

/-! ## Witness for claim 1 -/

set_option maxHeartbeats 1000000 in
/-- The orthonormal-with-extension run on the segment succeeds (helper for
the witnesses; the payload is recovered with `okD`). -/
theorem segExtRun_ok :
    affineHullProjection Adj2.baseHom oracF5 oracF5rt2 segF segFAb
        optsOrthonExt
      = .ok (okD (affineHullProjection Adj2.baseHom oracF5 oracF5rt2 segF
          segFAb optsOrthonExt) (dfltResult F5 F5rt2 2)) := by
  decide

/-- The affine basis of the segment spans its affine hull (helper for the
witnesses). -/
theorem segSpan : (optsOrthonExt.orthogonal || optsOrthonExt.orthonormal)
      = true →
    ∀ v ∈ segF.vertices, v - segFAb.headD 0 ∈ Submodule.span F5
      {u : Fin 2 → F5 | u ∈ segFAb.tail.map (fun w => w - segFAb.headD 0)} := by
  intro _ v hv
  simp only [segF] at hv
  rcases List.mem_cons.mp hv with h | h
  · rw [h]
    have h0 : (![1, 0] : Fin 2 → F5) - segFAb.headD 0 = 0 := by decide
    rw [h0]
    exact Submodule.zero_mem _
  · rcases List.mem_cons.mp h with h | h
    · rw [h]
      exact Submodule.subset_span (by decide)
    · exact absurd h (List.not_mem_nil v)

/-! ## Claim 2: the Gram matrix of the projection's linear part -/

/-- C2 counterexample.  The claim (following the spec) says the Gram
matrix `AᵀA` of the projection's linear part `A` is diagonal whenever
`orthogonal=True`; but for the segment with endpoints `(1,0)`, `(0,1)`
the orthogonal run succeeds with `A = (-1  1)`, whose `AᵀA` has nonzero
off-diagonal entries.  (The matrix that is diagonal is `A·Aᵀ`, the Gram
matrix of the *rows* of `A` — the quantity the source's own test checks,
since it computes `MᵀM` for `M = Aᵀ`.) -/
theorem claim2_counterexample :
    okBool (affineHullProjection idF5 oracF5 oracF5 segF segFAb optsOrth)
        = true
    ∧ ¬ isDiagB
        ((baseData (affineHullProjection idF5 oracF5 oracF5 segF segFAb
              optsOrth) (dfltData F5 2)).projA.transpose
          * (baseData (affineHullProjection idF5 oracF5 oracF5 segF segFAb
              optsOrth) (dfltData F5 2)).projA) := by
  decide

/-- C2 (amended).  When `orthogonal=True` or `orthonormal=True` and the
projection succeeds, the Gram matrix `A·Aᵀ` of the rows of the
projection's linear part `A` is diagonal, and it is the identity when
`orthonormal=True`. -/
theorem claim2_gram [Field F] [DecidableEq F] [Field E] [DecidableEq E]
    (φ : F →+* E) (oF : SqrtOracle F) (oE : SqrtOracle E)
    (P : Polyhedron F d) (ab : List (Fin d → F)) (opts : ProjOpts)
    (hflag : (opts.orthogonal || opts.orthonormal) = true)
    (r : ProjResult F E d)
    (hr : affineHullProjection φ oF oE P ab opts = .ok r) :
    gramRowsDiag r ∧ (opts.orthonormal = true → gramRowsOne r) := by
  unfold affineHullProjection at hr
  split at hr
  · simp at hr
  split at hr
  · rw [Except.ok.injEq] at hr
    subst hr
    constructor
    · refine gramRowsDiag_base _ ?_
      show isDiagB ((1 : Matrix (Fin d) (Fin d) F)
        * (1 : Matrix (Fin d) (Fin d) F).transpose)
      rw [Matrix.transpose_one, Matrix.mul_one]
      exact isDiagB_one
    · intro _
      refine gramRowsOne_base _ ?_
      show (1 : Matrix (Fin d) (Fin d) F)
        * (1 : Matrix (Fin d) (Fin d) F).transpose = 1
      rw [Matrix.transpose_one, Matrix.mul_one]
  split at hr
  · simp at hr
  split at hr
  · rename_i arows hgs
    rw [Except.ok.injEq] at hr
    subst hr
    have horth := gramSchmidt_ok_orthRows oF opts.orthonormal _ arows hgs
    constructor
    · refine gramRowsDiag_base _ ?_
      show isDiagB (matOfRows arows * (matOfRows arows).transpose)
      rw [gram_diagonal arows horth]
      exact isDiagB_diagonal _
    · intro hon
      rw [hon] at hgs
      refine gramRowsOne_base _ ?_
      show matOfRows arows * (matOfRows arows).transpose = 1
      exact gram_one arows horth.1
        (gramSchmidt_ok_norm_one oF _ arows hgs)
  · simp at hr
  · split at hr
    · simp at hr
    split at hr
    · rename_i arowsE hgsE
      rw [Except.ok.injEq] at hr
      subst hr
      have horth := gramSchmidt_ok_orthRows oE opts.orthonormal _ arowsE hgsE
      constructor
      · refine gramRowsDiag_ext _ _ ?_
        show isDiagB (matOfRows arowsE * (matOfRows arowsE).transpose)
        rw [gram_diagonal arowsE horth]
        exact isDiagB_diagonal _
      · intro hon
        rw [hon] at hgsE
        refine gramRowsOne_ext _ _ ?_
        show matOfRows arowsE * (matOfRows arowsE).transpose = 1
        exact gram_one arowsE horth.1
          (gramSchmidt_ok_norm_one oE _ arowsE hgsE)
    · simp at hr

set_option maxHeartbeats 1000000 in
theorem claim2_gram_witness :
    gramRowsDiag (okD (affineHullProjection Adj2.baseHom oracF5 oracF5rt2
        segF segFAb optsOrthonExt) (dfltResult F5 F5rt2 2))
    ∧ (optsOrthonExt.orthonormal = true →
        gramRowsOne (okD (affineHullProjection Adj2.baseHom oracF5 oracF5rt2
          segF segFAb optsOrthonExt) (dfltResult F5 F5rt2 2))) :=
  claim2_gram Adj2.baseHom oracF5 oracF5rt2 segF segFAb optsOrthonExt rfl _
    segExtRun_ok

/-! ## Claim 5: field-extension behaviour of the orthonormal mode -/

/-- C5.  For a polytope (non-empty, compact, not full-dimensional) whose
Gram-Schmidt orthonormalization needs a square root missing from the base
field: the `orthonormal=True` call without extension fails with the
field-extension error, while the call with extension allowed succeeds
(whenever Gram-Schmidt over the extension field succeeds, which the
extension field's square-root capability guarantees on such input)
and the rows of its linear part have Gram matrix exactly the identity. -/
theorem claim5_extension [Field F] [DecidableEq F] [Field E] [DecidableEq E]
    (φ : F →+* E) (oF : SqrtOracle F) (oE : SqrtOracle E)
    (P : Polyhedron F d) (ab : List (Fin d → F)) (minimal : Bool)
    (hne : P.vertices.isEmpty = false) (hdim : P.dim ≠ d)
    (hcomp : P.isCompact = true)
    (hgsF : gramSchmidt oF true (ab.tail.map (fun v => v - ab.headD 0))
        = .error .sqrtMissing) :
    affineHullProjection φ oF oE P ab ⟨false, true, false, minimal⟩
      = .error .extensionNeeded
    ∧ ∀ arowsE,
        gramSchmidt oE true
            ((ab.tail.map (fun v => v - ab.headD 0)).map (fun v => φ ∘ v))
          = .ok arowsE →
        affineHullProjection φ oF oE P ab ⟨false, true, true, minimal⟩
          = .ok (.ext (orthData (P.mapRing φ) arowsE (φ ∘ ab.headD 0))
              (if minimal then .sub (rowsEntries arowsE) else .closure))
        ∧ matOfRows arowsE * (matOfRows arowsE).transpose = 1 := by
  constructor
  · unfold affineHullProjection
    dsimp only
    rw [if_neg (by rw [hne]; exact Bool.false_ne_true), if_neg hdim,
      if_pos (by decide), if_neg (by rw [hcomp]; decide), hgsF]
    rfl
  · intro arowsE hgsE
    constructor
    · unfold affineHullProjection
      dsimp only
      rw [if_neg (by rw [hne]; exact Bool.false_ne_true), if_neg hdim,
        if_pos (by decide), if_neg (by rw [hcomp]; decide), hgsF, hgsE]
      rfl
    · exact gram_one arowsE
        (gramSchmidt_ok_orthRows oE true _ arowsE hgsE).1
        (gramSchmidt_ok_norm_one oE _ arowsE hgsE)

theorem claim5_extension_witness :
    affineHullProjection Adj2.baseHom oracF5 oracF5rt2 segF segFAb
        ⟨false, true, false, false⟩
      = .error .extensionNeeded :=
  (claim5_extension Adj2.baseHom oracF5 oracF5rt2 segF segFAb false
    (by decide) (by decide) rfl (by decide)).1

/-! ## Claim 7: the maps of the orthogonal/orthonormal branch -/

/-- C7.  In the orthogonal/orthonormal case with Gram-Schmidt matrix `A`
(the matrix whose rows are the Gram-Schmidt output) and `v0` the first
vertex of the chosen affine basis: the projection map is `(A, -A*v0)`,
the section map is `(Aᵀ(AAᵀ)⁻¹, v0)`, and the section's linear part is a
right inverse of `A`. -/
theorem claim7_orth_maps [Field F] [DecidableEq F] [Field E] [DecidableEq E]
    (φ : F →+* E) (oF : SqrtOracle F) (oE : SqrtOracle E)
    (P : Polyhedron F d) (ab : List (Fin d → F)) (opts : ProjOpts)
    (arows : List (Fin d → F))
    (hne : P.vertices.isEmpty = false) (hdim : P.dim ≠ d)
    (hflag : (opts.orthogonal || opts.orthonormal) = true)
    (hcomp : P.isCompact = true)
    (hgs : gramSchmidt oF opts.orthonormal
        (ab.tail.map (fun v => v - ab.headD 0)) = .ok arows) :
    affineHullProjection φ oF oE P ab opts
      = .ok (.base (orthData P arows (ab.headD 0)))
    ∧ (orthData P arows (ab.headD 0)).projA = matOfRows arows
    ∧ (orthData P arows (ab.headD 0)).projb
        = -((matOfRows arows).mulVec (ab.headD 0))
    ∧ (orthData P arows (ab.headD 0)).sectA
        = (matOfRows arows).transpose
          * cInv (matOfRows arows * (matOfRows arows).transpose)
    ∧ (orthData P arows (ab.headD 0)).sectb = ab.headD 0
    ∧ matOfRows arows
        * ((matOfRows arows).transpose
          * cInv (matOfRows arows * (matOfRows arows).transpose)) = 1 := by
  refine ⟨?_, rfl, ?_, rfl, rfl, ?_⟩
  · unfold affineHullProjection
    rw [if_neg (by rw [hne]; exact Bool.false_ne_true), if_neg hdim,
      if_pos hflag, if_neg (by rw [hcomp]; decide), hgs]
  · show (matOfRows arows).mulVec (-(ab.headD 0))
      = -((matOfRows arows).mulVec (ab.headD 0))
    rw [Matrix.mulVec_neg]
  · rw [← Matrix.mul_assoc, cInv_eq_inv,
      Matrix.mul_nonsing_inv _
        (gram_isUnit_det arows
          (gramSchmidt_ok_orthRows oF opts.orthonormal _ arows hgs))]

/-- The concrete Gram-Schmidt output on the segment in orthogonal mode
(helper used only to state the claim-7 witness). -/
def segGsRows : List (Fin 2 → F5) :=
  okD (gramSchmidt oracF5 optsOrth.orthonormal
    (segFAb.tail.map (fun v => v - segFAb.headD 0))) []

set_option maxHeartbeats 1000000 in
theorem claim7_orth_maps_witness :
    (affineHullProjection idF5 oracF5 oracF5 segF segFAb optsOrth
      = .ok (.base (orthData segF segGsRows (segFAb.headD 0))))
    ∧ (orthData segF segGsRows (segFAb.headD 0)).projA = matOfRows segGsRows
    ∧ (orthData segF segGsRows (segFAb.headD 0)).projb
        = -((matOfRows segGsRows).mulVec (segFAb.headD 0))
    ∧ (orthData segF segGsRows (segFAb.headD 0)).sectA
        = (matOfRows segGsRows).transpose
          * cInv (matOfRows segGsRows * (matOfRows segGsRows).transpose)
    ∧ (orthData segF segGsRows (segFAb.headD 0)).sectb = segFAb.headD 0
    ∧ matOfRows segGsRows
        * ((matOfRows segGsRows).transpose
          * cInv (matOfRows segGsRows * (matOfRows segGsRows).transpose))
        = 1 :=
  claim7_orth_maps idF5 oracF5 oracF5 segF segFAb optsOrth segGsRows
    (by decide) (by decide) rfl rfl (by decide)

/-! ## Claim 8: the maps of the non-orthogonal branch -/

/-- C8.  In the non-orthogonal case (both flags false, non-empty, not
full-dimensional): the displacement-generator list is `vertex_i - v0` for
the vertices other than the first plus all rays plus all lines; the
returned projection's linear part is the 0/1 coordinate-selection matrix
on the pivot columns of the displacement matrix with zero translation,
and the section's translation is `v0` minus the round-trip of `v0`
through projection and section; the section's linear part solves
`B * (A * Mᵀ) = Mᵀ` for the displacement matrix `M`. -/
theorem claim8_nonorth_maps [Field F] [DecidableEq F] [Field E]
    [DecidableEq E]
    (φ : F →+* E) (oF : SqrtOracle F) (oE : SqrtOracle E)
    (P : Polyhedron F d) (ab : List (Fin d → F)) (opts : ProjOpts)
    (hne : P.vertices.isEmpty = false) (hdim : P.dim ≠ d)
    (hflag : (opts.orthogonal || opts.orthonormal) = false)
    (r : ProjResult F E d)
    (hr : affineHullProjection φ oF oE P ab opts = .ok r) :
    P.gens = P.vertices.tail.map (fun v => v - P.vzero) ++ P.rays ++ P.lines
    ∧ ∃ B, r = .base
          { k := (pivotsL P.gens).length
            image := P.linImage (selMatrix F (pivotsL P.gens))
            projA := selMatrix F (pivotsL P.gens)
            projb := 0
            sectA := B
            sectb := P.vzero
              - B.mulVec ((selMatrix F (pivotsL P.gens)).mulVec P.vzero
                  + 0) }
        ∧ B * (selMatrix F (pivotsL P.gens) * (matOfRows P.gens).transpose)
            = (matOfRows P.gens).transpose := by
  refine ⟨rfl, ?_⟩
  unfold affineHullProjection at hr
  rw [if_neg (by rw [hne]; exact Bool.false_ne_true), if_neg hdim,
    if_neg (by rw [hflag]; exact Bool.false_ne_true)] at hr
  cases hno : nonOrthProj P with
  | error e =>
    rw [hno] at hr
    simp [Except.map] at hr
  | ok data =>
    rw [hno] at hr
    simp only [Except.map, Except.ok.injEq] at hr
    subst hr
    unfold nonOrthProj at hno
    split at hno
    · simp at hno
    · rename_i B hB
      rw [Except.ok.injEq] at hno
      exact ⟨B, congrArg ProjResult.base hno.symm,
        nonOrthSection_solves P B hB⟩

set_option maxHeartbeats 1000000 in
/-- The non-orthogonal run on the triangle succeeds (helper used only by
the claim-8 witness; the payload is recovered with `okD`). -/
theorem triRun_ok :
    affineHullProjection idF5 oracF5 oracF5 triangleF [] optsDefault
      = .ok (okD (affineHullProjection idF5 oracF5 oracF5 triangleF []
          optsDefault) (dfltResult F5 F5 3)) := by
  decide

set_option maxHeartbeats 1000000 in
theorem claim8_nonorth_maps_witness :
    triangleF.gens
        = triangleF.vertices.tail.map (fun v => v - triangleF.vzero)
          ++ triangleF.rays ++ triangleF.lines
    ∧ ∃ B, okD (affineHullProjection idF5 oracF5 oracF5 triangleF []
          optsDefault) (dfltResult F5 F5 3)
        = .base
          { k := (pivotsL triangleF.gens).length
            image := triangleF.linImage (selMatrix F5 (pivotsL triangleF.gens))
            projA := selMatrix F5 (pivotsL triangleF.gens)
            projb := 0
            sectA := B
            sectb := triangleF.vzero
              - B.mulVec ((selMatrix F5 (pivotsL triangleF.gens)).mulVec
                  triangleF.vzero + 0) }
        ∧ B * (selMatrix F5 (pivotsL triangleF.gens)
              * (matOfRows triangleF.gens).transpose)
            = (matOfRows triangleF.gens).transpose :=
  claim8_nonorth_maps idF5 oracF5 oracF5 triangleF [] optsDefault
    (by decide) (by decide) rfl _ triRun_ok

/-! ## Claim 9: the ring tag of the extension result -/

/-- C9.  When orthonormalization needs a field extension and the
extension is allowed: the result is computed over the extension field
`E` (the model of the real-algebraic closure `AA`), tagged with the whole
closure when `minimal_extension` is off and with the subfield generated
by the entries of the orthonormal matrix when it is on; the tags denote
the subfields `⊤` and `Subfield.closure` of the matrix entries. -/
theorem claim9_ring_tags [Field F] [DecidableEq F] [Field E] [DecidableEq E]
    (φ : F →+* E) (oF : SqrtOracle F) (oE : SqrtOracle E)
    (P : Polyhedron F d) (ab : List (Fin d → F)) (minimal : Bool)
    (arowsE : List (Fin d → E))
    (hne : P.vertices.isEmpty = false) (hdim : P.dim ≠ d)
    (hcomp : P.isCompact = true)
    (hgsF : gramSchmidt oF true (ab.tail.map (fun v => v - ab.headD 0))
        = .error .sqrtMissing)
    (hgsE : gramSchmidt oE true
        ((ab.tail.map (fun v => v - ab.headD 0)).map (fun v => φ ∘ v))
      = .ok arowsE) :
    affineHullProjection φ oF oE P ab ⟨false, true, true, minimal⟩
      = .ok (.ext (orthData (P.mapRing φ) arowsE (φ ∘ ab.headD 0))
          (if minimal then .sub (rowsEntries arowsE) else .closure))
    ∧ RingTag.toSubfield (E := E) .closure = ⊤
    ∧ RingTag.toSubfield (.sub (rowsEntries arowsE))
        = Subfield.closure {x : E | x ∈ rowsEntries arowsE} := by
  refine ⟨?_, rfl, rfl⟩
  unfold affineHullProjection
  dsimp only
  rw [if_neg (by rw [hne]; exact Bool.false_ne_true), if_neg hdim,
    if_pos (by decide), if_neg (by rw [hcomp]; decide), hgsF, hgsE]
  rfl

/-- The concrete Gram-Schmidt output on the segment over the extension
field (helper used only to state the claim-9 witness). -/
def segGsRowsE : List (Fin 2 → F5rt2) :=
  okD (gramSchmidt oracF5rt2 true
    ((segFAb.tail.map (fun v => v - segFAb.headD 0)).map
      (fun v => Adj2.baseHom ∘ v))) []

set_option maxHeartbeats 1000000 in
theorem claim9_ring_tags_witness :
    (affineHullProjection Adj2.baseHom oracF5 oracF5rt2 segF segFAb
        ⟨false, true, true, true⟩
      = .ok (.ext (orthData (segF.mapRing Adj2.baseHom) segGsRowsE
          (Adj2.baseHom ∘ segFAb.headD 0))
          (if true then .sub (rowsEntries segGsRowsE) else .closure)))
    ∧ RingTag.toSubfield (E := F5rt2) .closure = ⊤
    ∧ RingTag.toSubfield (.sub (rowsEntries segGsRowsE))
        = Subfield.closure {x : F5rt2 | x ∈ rowsEntries segGsRowsE} :=
  claim9_ring_tags Adj2.baseHom oracF5 oracF5rt2 segF segFAb true segGsRowsE
    (by decide) (by decide) rfl (by decide) (by decide)

set_option maxHeartbeats 1000000 in
theorem claim1_roundtrip_witness :
    roundTrips Adj2.baseHom segF
      (okD (affineHullProjection Adj2.baseHom oracF5 oracF5rt2 segF segFAb
          optsOrthonExt)
        (dfltResult F5 F5rt2 2)) :=
  claim1_roundtrip Adj2.baseHom oracF5 oracF5rt2 segF segFAb optsOrthonExt
    segSpan _ segExtRun_ok

end AffineHull
